import Mathlib

/-!
Icon lookup and icon scaling of dunst, `src/icon.c`.

A shallow embedding of `get_filename_ext`, `is_readable_file`, `get_pixbuf_from_file`,
`get_pixbuf_from_icon` and of the scaling step of `icon_get_for_notification`,
followed by the properties proved about them.

Conventions of the embedding.

* A C string is the list of its characters before the terminating NUL.  A
  pointer into a C string is the suffix it points at, so `p + 1` is `p.drop 1`,
  `q - p` (for `q` inside `p`) is `p.length - q.length`, and two pointers into
  the same string are equal exactly when the suffixes have the same length.
* C `int` arithmetic is done on `Int`; products and quotients are wrapped to 32
  bits two's complement, and a division by zero has no result (`none`).
* Calls that leave the program (`access`, `gdk_pixbuf_new_from_file`, `LOG_W`)
  are recorded, in order, in a list of events returned next to the result.
* The `do ... while` loop over `settings.icon_path` takes a fuel argument; `none`
  means the fuel ran out before the loop ended.  The loop is shown to end with
  any fuel larger than the length of `settings.icon_path`.
-/

namespace Icon

/-! ## C integers -/

/-- Largest value of a C `int`. -/
def INT_MAX : Int := 2147483647

/-- Smallest value of a C `int`. -/
def INT_MIN : Int := -2147483648

/-- Reduction of a mathematical integer to the 32-bit two's complement `int` it is stored as. -/
def wrap_int (x : Int) : Int := (x + 2147483648) % 4294967296 - 2147483648

/-- C `a * b` on `int`. -/
def c_mul (a b : Int) : Int := wrap_int (a * b)

/-- C `a / b` on `int`: truncation toward zero, no result when the divisor is zero. -/
def c_div (a b : Int) : Option Int :=
  if b = 0 then none else some (wrap_int (Int.tdiv a b))

/-! ## The scaling step of `icon_get_for_notification` (lines 160-178) -/

/-- The scaling step of `icon_get_for_notification`, for a pixbuf of width `w` and height `h`
and `settings.max_icon_size = max_icon_size`.

* `none`: the step divides by zero;
* `some none`: the condition of the `if` is false, `gdk_pixbuf_scale_simple` is not called;
* `some (some (scaled_w, scaled_h))`: `gdk_pixbuf_scale_simple` is called with this size. -/
def scale_step (max_icon_size w h : Int) : Option (Option (Int × Int)) :=
  let larger := if w > h then w else h
  if max_icon_size ≠ 0 ∧ larger > max_icon_size then
    let scaled_w := max_icon_size
    let scaled_h := max_icon_size
    if w ≥ h then
      (c_div (c_mul max_icon_size h) w).map fun scaled_h => some (scaled_w, scaled_h)
    else
      (c_div (c_mul max_icon_size w) h).map fun scaled_w => some (scaled_w, scaled_h)
  else
    some none

/-- Target size computed by the scaling step: the size passed to `gdk_pixbuf_scale_simple`
when it is called, the size of the input pixbuf otherwise. -/
def target_size (max_icon_size w h : Int) : Option (Int × Int) :=
  (scale_step max_icon_size w h).map fun r => r.getD (w, h)

/-- Reference definition of the target size, following the words of the specification
(`scale_to_limit`): unchanged when the limit is zero or the larger side is within it, else the
larger side becomes the limit and the other one the floor of the exact quotient. -/
def scale_to_limit_spec (m w h : Int) : Int × Int :=
  if m = 0 ∨ max w h ≤ m then (w, h)
  else if w ≥ h then (m, Int.floor (((m * h : Int) : ℚ) / (w : ℚ)))
  else (Int.floor (((m * w : Int) : ℚ) / (h : ℚ)), m)

/-! ## C strings -/

/-- A C string: its characters before the terminating NUL. -/
abbrev CString := List Char

/-- C `strchr(s, c)` for a character `c` other than NUL: the suffix of `s` starting at the
first occurrence of `c`, `none` (NULL) when `c` does not occur. -/
def strchr : CString → Char → Option CString
  | [], _ => none
  | x :: xs, c => if x = c then some (x :: xs) else strchr xs c

/-- C `strrchr(s, c)` for a character `c` other than NUL: the suffix of `s` starting at the
last occurrence of `c`, `none` (NULL) when `c` does not occur. -/
def strrchr : CString → Char → Option CString
  | [], _ => none
  | x :: xs, c =>
    match strrchr xs c with
    | some r => some r
    | none => if x = c then some (x :: xs) else none

/-- The function `get_filename_ext` (lines 18-23).  `dot == filename` compares two pointers into
`filename`: it holds when the suffix `dot` is the whole string. -/
def get_filename_ext (filename : CString) : CString :=
  match strrchr filename '.' with
  | none => []
  | some dot => if dot.length = filename.length then [] else dot.drop 1

/-- Final component of a path, in the words of the specification: the part after the last
separator. -/
def final_component (path : CString) : CString :=
  ((path.splitOn '/').getLast?).getD []

/-- Extension of a path in the words of the specification (`extension_of`): the substring
after the last dot of the final path component, empty when that component has no dot or when
its only dot is its first character. -/
def extension_of (path : CString) : CString :=
  let comp := final_component path
  let ext := ((comp.splitOn '.').getLast?).getD []
  if '.' ∉ comp ∨ comp = '.' :: ext then [] else ext

/-- Modelled from the spec: the macro `STR_EMPTY` of `utils.h`, which is not part of the
sources at hand.  It holds of the empty string (the specification returns no icon for an
empty text); the strings it is applied to here are never NULL. -/
def STR_EMPTY (s : CString) : Bool := s.isEmpty

/-- Modelled from the spec: the macro `STR_FULL` of `utils.h`, the negation of `STR_EMPTY`
(the directory scan goes on while the delimiter found is not the end of the string). -/
def STR_FULL (s : CString) : Bool := !STR_EMPTY s

/-- GLib `g_str_has_prefix (str, prefix)`. -/
def g_str_has_prefix (str pre : CString) : Bool := pre.isPrefixOf str

/-! ## The world outside `icon.c` -/

/-- Calls that leave `icon.c`, as they are recorded in the log. -/
inductive Event where
  /-- The call `access(path, R_OK)` made by `is_readable_file`. -/
  | access (path : CString)
  /-- The call `gdk_pixbuf_new_from_file(path, &error)`. -/
  | load (path : CString)
  /-- The call `LOG_W` with the formatted message. -/
  | warn (msg : CString)
  deriving DecidableEq

/-- Everything `get_pixbuf_from_icon` reads from outside: the settings, the file system and the
library functions whose code is elsewhere.  `Pixbuf` is the type of decoded images. -/
structure World (Pixbuf : Type) where
  /-- The setting `settings.icon_path`. -/
  icon_path : CString
  /-- Result of `access(path, R_OK)`: `0` on success, `-1` on failure. -/
  access_R_OK : CString → Int
  /-- Result of `gdk_pixbuf_new_from_file(path, &error)`: the pointer returned (`none` for
  NULL) and the message of `error` after the call (`none` when `error` is still NULL). -/
  gdk_pixbuf_new_from_file : CString → Option Pixbuf × Option CString
  /-- Result of `g_filename_from_uri(uri, NULL, NULL)`, `none` for NULL. -/
  g_filename_from_uri : CString → Option CString
  /-- The function `string_to_path` of `utils.c`, which is not part of the sources at hand. -/
  string_to_path : CString → CString

variable {Pixbuf : Type}

/-! ## `is_readable_file`, `get_pixbuf_from_file`, `get_pixbuf_from_icon` -/

/-- The function `is_readable_file` (lines 13-16): `access(filename, R_OK) != -1`. -/
def is_readable_file (W : World Pixbuf) (filename : CString) : Bool :=
  W.access_R_OK filename != -1

/-- The function `get_pixbuf_from_file` (lines 61-75): the pixbuf returned (`none` for NULL)
and the events of the call.  The error message, when there is one, is logged with `LOG_W`. -/
def get_pixbuf_from_file (W : World Pixbuf) (filename : CString) :
    Option Pixbuf × List Event :=
  let path := W.string_to_path filename
  let r := W.gdk_pixbuf_new_from_file path
  (r.1, Event.load path :: (match r.2 with
    | some message => [Event.warn message]
    | none => []))

/-- The array `suffixes` of `get_pixbuf_from_icon` (line 82), without its NULL terminator. -/
def suffixes : List CString := [".svg".toList, ".png".toList, ".xpm".toList]

/-- The `for` loop over `suffixes` (lines 105-113), from the suffix pointed at by `suf` on.
`pixbuf` is the value of the variable `pixbuf` on entry; the result is its value on exit and
the events of the loop. -/
def suffix_loop (W : World Pixbuf) (current_folder iconname : CString) :
    List CString → Option Pixbuf → Option Pixbuf × List Event
  | [], pixbuf => (pixbuf, [])
  | suf :: rest, pixbuf =>
    let maybe_icon_path := current_folder ++ "/".toList ++ iconname ++ suf
    let r := if is_readable_file W maybe_icon_path then get_pixbuf_from_file W maybe_icon_path
      else (pixbuf, [])
    let log := Event.access maybe_icon_path :: r.2
    if r.1.isSome then (r.1, log)
    else
      let r2 := suffix_loop W current_folder iconname rest r.1
      (r2.1, log ++ r2.2)

/-- The `do ... while` loop over the folders of `settings.icon_path` (lines 99-120).  `start` is
the string the pointer `start` points at, `pixbuf` the value of the variable on entry.  When
`strchr` finds no delimiter, `end` is the end of the string, the empty suffix. -/
def folder_loop (W : World Pixbuf) (iconname : CString) :
    Nat → CString → Option Pixbuf → Option (Option Pixbuf × List Event)
  | 0, _, _ => none
  | fuel + 1, start, pixbuf =>
    let end_ := match strchr start ':' with
      | some e => e
      | none => []
    let current_folder := start.take (start.length - end_.length)
    let r := suffix_loop W current_folder iconname suffixes pixbuf
    if r.1.isSome then some r
    else if STR_FULL end_ then
      (folder_loop W iconname fuel (end_.drop 1) r.1).map fun r2 => (r2.1, r.2 ++ r2.2)
    else some r

/-- The value of `iconname` after lines 86-90: the local path of a `file://` URI that
`g_filename_from_uri` resolves, the text itself otherwise. -/
def uri_resolved (W : World Pixbuf) (iconname : CString) : CString :=
  let uri_path :=
    if g_str_has_prefix iconname "file://".toList then W.g_filename_from_uri iconname else none
  match uri_path with
  | some p => p
  | none => iconname

/-- The function `get_pixbuf_from_icon` (lines 77-127): the pixbuf returned (`none` for NULL)
and the events of the call; `none` when the fuel given to the folder loop ran out. -/
def get_pixbuf_from_icon (W : World Pixbuf) (fuel : Nat) (iconname : CString) :
    Option (Option Pixbuf × List Event) :=
  if STR_EMPTY iconname then some (none, [])
  else
    let iconname := uri_resolved W iconname
    if iconname.head? = some '/' ∨ iconname.head? = some '~' then
      some (get_pixbuf_from_file W iconname)
    else
      (folder_loop W iconname fuel W.icon_path none).map fun r =>
        if r.1.isNone then
          (r.1, r.2 ++ [Event.warn ("No icon found in path: '".toList ++ iconname ++ "'".toList)])
        else r

/-! ## Vocabulary of the properties -/

/-- The candidate files of a search, in the order the specification gives them: for each
segment of `icon_path` between colons (empty segments included), the name with each of the
three suffixes. -/
def candidates (icon_path name : CString) : List CString :=
  (icon_path.splitOn ':').flatMap fun dir =>
    suffixes.map fun suf => dir ++ "/".toList ++ name ++ suf

/-- A bare icon name: not empty, not starting with a slash or a tilde, and not a `file://` URI
that `g_filename_from_uri` resolves. -/
def bare_name (W : World Pixbuf) (name : CString) : Prop :=
  name ≠ [] ∧ name.head? ≠ some '/' ∧ name.head? ≠ some '~' ∧
  ¬ ( g_str_has_prefix name "file://".toList = true ∧ (W.g_filename_from_uri name).isSome = true)

instance bare_name_decidable (W : World Pixbuf) (name : CString) :
    Decidable (bare_name W name) := by
  unfold bare_name
  infer_instance

/-- A candidate wins when it is readable and `get_pixbuf_from_file` returns a pixbuf for it. -/
def wins (W : World Pixbuf) (c : CString) : Bool :=
  is_readable_file W c && (get_pixbuf_from_file W c).1.isSome

/-- The events of trying one candidate: the readability check, then, when the candidate is
readable, the events of `get_pixbuf_from_file`. -/
def probe (W : World Pixbuf) (c : CString) : List Event :=
  Event.access c :: (if is_readable_file W c then (get_pixbuf_from_file W c).2 else [])

/-- The candidates up to and including the first one that wins (all of them when none wins). -/
def tested (W : World Pixbuf) (cs : List CString) : List CString :=
  cs.takeWhile (fun c => !wins W c) ++ (cs.find? (wins W)).toList

/-- The warning of a failed search, `LOG_W("No icon found in path: '%s'", name)`. -/
def not_found_warning (name : CString) : Event :=
  Event.warn ("No icon found in path: '".toList ++ name ++ "'".toList)

/-- The paths checked with `access`, in order. -/
def accessed : List Event → List CString
  | [] => []
  | Event.access p :: es => p :: accessed es
  | _ :: es => accessed es

/-- The paths given to `gdk_pixbuf_new_from_file`, in order. -/
def loaded : List Event → List CString
  | [] => []
  | Event.load p :: es => p :: loaded es
  | _ :: es => loaded es

/-- The messages logged with `LOG_W`, in order. -/
def warnings : List Event → List CString
  | [] => []
  | Event.warn m :: es => m :: warnings es
  | _ :: es => warnings es

/-- Trying a list of candidates one after the other until one wins: the pixbuf of the winner
and the events.  The two loops of `get_pixbuf_from_icon` are shown to compute this. -/
def scan (W : World Pixbuf) : List CString → Option Pixbuf × List Event
  | [] => (none, [])
  | c :: cs =>
    if wins W c then ((get_pixbuf_from_file W c).1, probe W c)
    else ((scan W cs).1, probe W c ++ (scan W cs).2)

/-! ## Concrete worlds -/

/-- Search path `/a:/b` where only `/b/bell.png` exists. -/
def bellWorld : World Nat where
  icon_path := "/a:/b".toList
  access_R_OK := fun p => if p = "/b/bell.png".toList then 0 else -1
  gdk_pixbuf_new_from_file := fun p =>
    if p = "/b/bell.png".toList then (some 1, none)
    else (none, some "Failed to open file".toList)
  g_filename_from_uri := fun _ => none
  string_to_path := fun p => p

/-- Every file is readable and none can be decoded. -/
def corruptWorld : World Nat where
  icon_path := "/usr/share/icons".toList
  access_R_OK := fun _ => 0
  gdk_pixbuf_new_from_file := fun _ =>
    (none, some "Couldn\x27t recognize the image file format".toList)
  g_filename_from_uri := fun _ => none
  string_to_path := fun p => p

/-- Search path `/a:/b` with no readable file at all. -/
def emptyWorld : World Nat where
  icon_path := "/a:/b".toList
  access_R_OK := fun _ => -1
  gdk_pixbuf_new_from_file := fun _ => (none, some "Failed to open file".toList)
  g_filename_from_uri := fun _ => none
  string_to_path := fun p => p

/-- Search path `/a` where `/a/bell.svg` is corrupt and every other file decodes. -/
def fallbackWorld : World Nat where
  icon_path := "/a".toList
  access_R_OK := fun _ => 0
  gdk_pixbuf_new_from_file := fun p =>
    if p = "/a/bell.svg".toList then
      (none, some "Couldn\x27t recognize the image file format".toList)
    else (some 7, none)
  g_filename_from_uri := fun _ => none
  string_to_path := fun p => p

/-- A `file://` URI that resolves to a local file which cannot be decoded. -/
def uriWorld : World Nat where
  icon_path := "/a".toList
  access_R_OK := fun _ => 0
  gdk_pixbuf_new_from_file := fun _ => (none, some "Failed to open file".toList)
  g_filename_from_uri := fun u =>
    if u = "file:///tmp/x.png".toList then some "/tmp/x.png".toList else none
  string_to_path := fun p => p

/-! ## Arithmetic lemmas -/

theorem wrap_int_of_range {x : Int} (h1 : INT_MIN ≤ x) (h2 : x ≤ INT_MAX) : wrap_int x = x := by
  unfold wrap_int
  unfold INT_MIN at h1
  unfold INT_MAX at h2
  omega

theorem wrap_int_le (x : Int) : wrap_int x ≤ INT_MAX := by
  unfold wrap_int INT_MAX
  omega

theorem wrap_int_ge (x : Int) : INT_MIN ≤ wrap_int x := by
  unfold wrap_int INT_MIN
  omega

theorem c_div_c_mul_of_range {m a d : Int} (h0 : 0 ≤ m * a) (h1 : m * a ≤ INT_MAX)
    (hd : 0 < d) : c_div (c_mul m a) d = some (m * a / d) := by
  have hmul : c_mul m a = m * a :=
    wrap_int_of_range (le_trans (by decide) h0) h1
  have hq0 : 0 ≤ m * a / d := Int.ediv_nonneg h0 hd.le
  have hq1 : m * a / d ≤ m * a := Int.ediv_le_self _ h0
  unfold c_div
  rw [if_neg hd.ne', hmul, Int.tdiv_eq_ediv h0 hd.le,
    wrap_int_of_range (le_trans (by decide) hq0) (le_trans hq1 h1)]

theorem floor_rat_div (a d : Int) (hd : 0 < d) :
    Int.floor (((a : Int) : ℚ) / (d : ℚ)) = a / d := by
  obtain ⟨n, rfl⟩ := Int.eq_ofNat_of_zero_le hd.le
  exact Rat.floor_intCast_div_natCast a n

theorem ite_gt_eq_max (w h : Int) : (if w > h then w else h) = max w h := by
  split_ifs with hc
  · exact (max_eq_left hc.le).symm
  · exact (max_eq_right (not_lt.mp hc)).symm

theorem scale_step_keep {m w h : Int} (hk : m = 0 ∨ max w h ≤ m) :
    scale_step m w h = some none := by
  have hcond : ¬ (m ≠ 0 ∧ (if w > h then w else h) > m) := by
    rw [ite_gt_eq_max]
    rcases hk with h0 | h1
    · exact fun hc => hc.1 h0
    · exact fun hc => absurd h1 (not_le.mpr hc.2)
  unfold scale_step
  simp only []
  rw [if_neg hcond]

theorem scale_step_wide {m w h : Int} (hm : m ≠ 0) (hgt : m < w) (hwh : h ≤ w) :
    scale_step m w h = (c_div (c_mul m h) w).map fun q => some (m, q) := by
  have hcond : m ≠ 0 ∧ (if w > h then w else h) > m := by
    rw [ite_gt_eq_max, max_eq_left hwh]
    exact ⟨hm, hgt⟩
  unfold scale_step
  simp only []
  rw [if_pos hcond, if_pos (show w ≥ h from hwh)]

theorem scale_step_tall {m w h : Int} (hm : m ≠ 0) (hgt : m < h) (hwh : w < h) :
    scale_step m w h = (c_div (c_mul m w) h).map fun q => some (q, m) := by
  have hcond : m ≠ 0 ∧ (if w > h then w else h) > m := by
    rw [ite_gt_eq_max, max_eq_right hwh.le]
    exact ⟨hm, hgt⟩
  unfold scale_step
  simp only []
  rw [if_pos hcond, if_neg (show ¬ w ≥ h from not_le.mpr hwh)]

/-- The quotient computed by the scaling step never exceeds the limit. -/
theorem ediv_le_limit {m s l : Int} (hm : 0 ≤ m) (hs : s ≤ l) (hl : 0 < l) : m * s / l ≤ m := by
  have : m * s / l < m + 1 := by
    rw [Int.ediv_lt_iff_lt_mul hl]
    nlinarith
  omega

/-- Even when the product wraps, the wrapped quotient of the scaling step stays at or below
the limit. -/
theorem wrapped_quotient_le {m s l : Int} (hm : 0 < m) (hs0 : 0 ≤ s) (hs : s ≤ l)
    (hl : m < l) : ∃ q, c_div (c_mul m s) l = some q ∧ q ≤ m := by
  have hlpos : 0 < l := by omega
  refine ⟨wrap_int ((c_mul m s).tdiv l), ?_, ?_⟩
  · unfold c_div
    rw [if_neg hlpos.ne']
  · have ha1 : INT_MIN ≤ c_mul m s := wrap_int_ge _
    have ha2 : c_mul m s ≤ INT_MAX := wrap_int_le _
    have hprod : 0 ≤ m * s := mul_nonneg hm.le hs0
    have hmono : m * s ≤ m * l := by nlinarith
    by_cases hneg : c_mul m s < 0
    · obtain ⟨b, hb⟩ : ∃ b, c_mul m s = -b := ⟨-c_mul m s, by omega⟩
      have hb0 : 0 ≤ b := by omega
      have hq0 : 0 ≤ b / l := Int.ediv_nonneg hb0 hlpos.le
      have hq1 : b / l ≤ b := Int.ediv_le_self _ hb0
      rw [hb, Int.neg_tdiv, Int.tdiv_eq_ediv hb0 hlpos.le]
      have hr1 : INT_MIN ≤ -(b / l) := by omega
      have hr2 : -(b / l) ≤ INT_MAX := by
        unfold INT_MAX
        omega
      rw [wrap_int_of_range hr1 hr2]
      omega
    · have ha0 : 0 ≤ c_mul m s := not_lt.mp hneg
      have hbound : c_mul m s ≤ m * l := by
        by_cases hov : m * s ≤ INT_MAX
        · have : c_mul m s = m * s := wrap_int_of_range (le_trans (by decide) hprod) hov
          omega
        · omega
      have hq0 : 0 ≤ c_mul m s / l := Int.ediv_nonneg ha0 hlpos.le
      have hq1 : c_mul m s / l ≤ c_mul m s := Int.ediv_le_self _ ha0
      have hq2 : c_mul m s / l ≤ m := by
        have : c_mul m s / l < m + 1 := by
          rw [Int.ediv_lt_iff_lt_mul hlpos]
          nlinarith
        omega
      rw [Int.tdiv_eq_ediv ha0 hlpos.le,
        wrap_int_of_range (le_trans (by decide) hq0) (le_trans hq1 ha2)]
      exact hq2

/-- Exact-rational bounds of an integer quotient with positive divisor. -/
theorem ediv_rat_bounds (a l : Int) (hl : 0 < l) :
    (a : ℚ) / (l : ℚ) - 1 < ((a / l : Int) : ℚ) ∧ ((a / l : Int) : ℚ) ≤ (a : ℚ) / (l : ℚ) := by
  rw [← floor_rat_div a l hl]
  exact ⟨Int.sub_one_lt_floor _, Int.floor_le _⟩


/-- Claim C5.  For non-negative `m`, `w`, `h` with `m * w` and `m * h` within `int`, the target
size computed by the scaling step is the one of the reference definition `scale_to_limit_spec`:
unchanged when `m = 0` or `max w h ≤ m`, and then `gdk_pixbuf_scale_simple` is not called;
otherwise `(m, floor (m * h / w))` when `w ≥ h` and `(floor (m * w / h), m)` when `w < h`.
When `m > 0` the larger target dimension does not exceed `m`. -/
theorem scale_step_refines_spec (m w h : Int) (hm : 0 ≤ m) (hw : 0 ≤ w) (hh : 0 ≤ h)
    (hmw : m * w ≤ INT_MAX) (hmh : m * h ≤ INT_MAX) :
    target_size m w h = some (scale_to_limit_spec m w h) ∧
    ((m = 0 ∨ max w h ≤ m) → scale_step m w h = some none) ∧
    (0 < m → max (scale_to_limit_spec m w h).1 (scale_to_limit_spec m w h).2 ≤ m) := by
  by_cases hnoop : m = 0 ∨ max w h ≤ m
  · refine ⟨?_, fun _ => scale_step_keep hnoop, ?_⟩
    · unfold target_size scale_to_limit_spec
      rw [scale_step_keep hnoop, if_pos hnoop]
      rfl
    · intro hpos
      unfold scale_to_limit_spec
      rw [if_pos hnoop]
      rcases hnoop with h0 | h1
      · omega
      · exact h1
  · have hm0 : m ≠ 0 := fun h0 => hnoop (Or.inl h0)
    have hgt : max w h > m := not_le.mp fun h1 => hnoop (Or.inr h1)
    by_cases hwh : w ≥ h
    · rw [max_eq_left hwh] at hgt
      have hwpos : 0 < w := by omega
      refine ⟨?_, fun hc => absurd hc hnoop, ?_⟩
      · unfold target_size scale_to_limit_spec
        rw [scale_step_wide hm0 hgt hwh, if_neg hnoop, if_pos hwh,
          c_div_c_mul_of_range (mul_nonneg hm hh) hmh hwpos, floor_rat_div _ _ hwpos]
        rfl
      · intro _
        unfold scale_to_limit_spec
        rw [if_neg hnoop, if_pos hwh, floor_rat_div _ _ hwpos]
        exact max_le le_rfl (ediv_le_limit hm hwh hwpos)
    · have hlt : w < h := not_le.mp hwh
      rw [max_eq_right hlt.le] at hgt
      have hhpos : 0 < h := by omega
      refine ⟨?_, fun hc => absurd hc hnoop, ?_⟩
      · unfold target_size scale_to_limit_spec
        rw [scale_step_tall hm0 hgt hlt, if_neg hnoop, if_neg hwh,
          c_div_c_mul_of_range (mul_nonneg hm hw) hmw hhpos, floor_rat_div _ _ hhpos]
        rfl
      · intro _
        unfold scale_to_limit_spec
        rw [if_neg hnoop, if_neg hwh, floor_rat_div _ _ hhpos]
        exact max_le (ediv_le_limit hm hlt.le hhpos) le_rfl

/-- Claim C6.  Scaling is idempotent on sizes: for every buffer size `(w, h)` (non-negative
`w`, `h`) and every limit `N > 0` the scaling step yields a size `s`, and applied to `s` it takes
the branch that does not rescale and yields `s` again.  No bound on the products is assumed:
the statement also covers the inputs on which `N * h` or `N * w` wraps. -/
theorem scale_step_idempotent (N w h : Int) (hN : 0 < N) (hw : 0 ≤ w) (hh : 0 ≤ h) :
    ∃ s : Int × Int, target_size N w h = some s ∧ target_size N s.1 s.2 = some s ∧
      scale_step N s.1 s.2 = some none := by
  have hkeep : ∀ a b : Int, max a b ≤ N →
      target_size N a b = some (a, b) ∧ scale_step N a b = some none := by
    intro a b hab
    have hs := scale_step_keep (Or.inr hab : N = 0 ∨ max a b ≤ N)
    refine ⟨?_, hs⟩
    unfold target_size
    rw [hs]
    rfl
  by_cases hnoop : max w h ≤ N
  · exact ⟨(w, h), (hkeep w h hnoop).1, (hkeep w h hnoop).1, (hkeep w h hnoop).2⟩
  · have hgt : N < max w h := not_le.mp hnoop
    by_cases hwh : h ≤ w
    · rw [max_eq_left hwh] at hgt
      obtain ⟨q, hq, hqN⟩ := wrapped_quotient_le hN hh hwh hgt
      refine ⟨(N, q), ?_, (hkeep N q (max_le le_rfl hqN)).1, (hkeep N q (max_le le_rfl hqN)).2⟩
      unfold target_size
      rw [scale_step_wide hN.ne' hgt hwh, hq]
      rfl
    · have hlt : w < h := not_le.mp hwh
      rw [max_eq_right hlt.le] at hgt
      obtain ⟨q, hq, hqN⟩ := wrapped_quotient_le hN hw hlt.le hgt
      refine ⟨(q, N), ?_, (hkeep q N (max_le hqN le_rfl)).1, (hkeep q N (max_le hqN le_rfl)).2⟩
      unfold target_size
      rw [scale_step_tall hN.ne' hgt hlt, hq]
      rfl

/-- Claim C7 fails as stated: for the size 46342 x 46341 and the limit 46341 the product
`46341 * 46341` exceeds `INT_MAX`, the wrapped quotient is `-46339`, and the smaller target
dimension is not above `N * s / l - 1`. -/
theorem aspect_bound_fails_on_overflow :
    (1 : Int) ≤ 46342 ∧ (1 : Int) ≤ 46341 ∧ max (46342 : Int) 46341 > 46341 ∧
    target_size 46341 46342 46341 = some (46341, -46339) ∧
    ¬ ((46341 * 46341 : ℚ) / 46342 - 1 < ((-46339 : Int) : ℚ)) := by
  refine ⟨by decide, by decide, by decide, by decide, ?_⟩
  norm_num

/-- Claim C7, amended with the bound `N * min w h ≤ INT_MAX`.  For `w, h ≥ 1` and a limit
`N ≥ 1` with `max w h > N` whose product with the smaller side does not overflow, the scaling
step requests a size whose larger dimension is exactly `N` (on the side of the larger source
dimension) and whose other dimension `s'` satisfies `N * s / l - 1 < s' ≤ N * s / l` as exact
rationals, `s` and `l` being the smaller and the larger source dimension. -/
theorem aspect_ratio_within_one_pixel (N w h : Int) (hN : 1 ≤ N) (hw : 1 ≤ w) (hh : 1 ≤ h)
    (hgt : N < max w h) (hov : N * min w h ≤ INT_MAX) :
    ∃ tw th : Int, scale_step N w h = some (some (tw, th)) ∧ max tw th = N ∧
      (h ≤ w → tw = N ∧ ((N : ℚ) * h / w - 1 < (th : ℚ) ∧ (th : ℚ) ≤ (N : ℚ) * h / w)) ∧
      (w < h → th = N ∧ ((N : ℚ) * w / h - 1 < (tw : ℚ) ∧ (tw : ℚ) ≤ (N : ℚ) * w / h)) := by
  have hN0 : N ≠ 0 := by omega
  by_cases hwh : h ≤ w
  · rw [max_eq_left hwh] at hgt
    rw [min_eq_right hwh] at hov
    have hwpos : 0 < w := by omega
    have hb := ediv_rat_bounds (N * h) w hwpos
    rw [Int.cast_mul] at hb
    refine ⟨N, N * h / w, ?_, max_eq_left (ediv_le_limit (by omega) hwh hwpos),
      fun _ => ⟨rfl, hb⟩, fun hc => absurd hwh (not_le.mpr hc)⟩
    rw [scale_step_wide hN0 hgt hwh,
      c_div_c_mul_of_range (mul_nonneg (by omega) (by omega)) hov hwpos]
    rfl
  · have hlt : w < h := not_le.mp hwh
    rw [max_eq_right hlt.le] at hgt
    rw [min_eq_left hlt.le] at hov
    have hhpos : 0 < h := by omega
    have hb := ediv_rat_bounds (N * w) h hhpos
    rw [Int.cast_mul] at hb
    refine ⟨N * w / h, N, ?_, max_eq_right (ediv_le_limit (by omega) hlt.le hhpos),
      fun hc => absurd hc hwh, fun _ => ⟨rfl, hb⟩⟩
    rw [scale_step_tall hN0 hgt hlt,
      c_div_c_mul_of_range (mul_nonneg (by omega) (by omega)) hov hhpos]
    rfl

/-- Claim C8 fails as stated: a buffer of width 0 and height 5 with limit 3 is not left
unchanged, a rescale to `(0, 3)` is requested. -/
theorem zero_width_is_rescaled :
    scale_step 3 0 5 = some (some (0, 3)) ∧ target_size 3 0 5 ≠ some (0, 5) := by
  decide

/-- Claim C8, amended.  For a buffer whose width or height is 0 (the other side non-negative)
and every `max_icon_size ≥ 0`, the scaling step performs no division by zero; it requests no
rescale when `max_icon_size = 0` or the other side is within the limit, and otherwise requests
a rescale that keeps the zero side at 0 and sets the other side to `max_icon_size`. -/
theorem degenerate_size_step (m w h : Int) (hm : 0 ≤ m) (hw : 0 ≤ w) (hh : 0 ≤ h)
    (hz : w = 0 ∨ h = 0) :
    scale_step m w h ≠ none ∧
    scale_step m w h =
      (if m = 0 ∨ max w h ≤ m then some none
       else some (some (if w = 0 then (0, m) else (m, 0)))) := by
  have key : scale_step m w h =
      (if m = 0 ∨ max w h ≤ m then some none
       else some (some (if w = 0 then (0, m) else (m, 0)))) := by
    by_cases hnoop : m = 0 ∨ max w h ≤ m
    · rw [if_pos hnoop, scale_step_keep hnoop]
    · rw [if_neg hnoop]
      have hm0 : m ≠ 0 := fun h0 => hnoop (Or.inl h0)
      have hgt : max w h > m := not_le.mp fun h1 => hnoop (Or.inr h1)
      rcases hz with hw0 | hh0
      · subst hw0
        rw [max_eq_right hh] at hgt
        have hhpos : 0 < h := by omega
        rw [scale_step_tall hm0 hgt hhpos,
          c_div_c_mul_of_range (by simp) (by simp [INT_MAX]) hhpos, if_pos rfl]
        simp
      · subst hh0
        rw [max_eq_left hw] at hgt
        have hwpos : 0 < w := by omega
        rw [scale_step_wide hm0 hgt hw,
          c_div_c_mul_of_range (by simp) (by simp [INT_MAX]) hwpos, if_neg hwpos.ne']
        simp
  refine ⟨?_, key⟩
  rw [key]
  split_ifs <;> simp

/-- Claim C10.  For `w, h ≥ 1` and `m ≥ 1` with `max w h > m` and `m * min w h` within `int`,
the size requested from the resampler has its larger side equal to `m` (on the side of the
larger source dimension) and its smaller side in `[0, m]`; the smaller side is 0 exactly when
`m * min w h < max w h` and at least 1 otherwise. -/
theorem requested_size_range (m w h : Int) (hm : 1 ≤ m) (hw : 1 ≤ w) (hh : 1 ≤ h)
    (hgt : m < max w h) (hov : m * min w h ≤ INT_MAX) :
    ∃ tw th : Int, scale_step m w h = some (some (tw, th)) ∧
      (h ≤ w → tw = m) ∧ (w < h → th = m) ∧
      max tw th = m ∧ 0 ≤ min tw th ∧ min tw th ≤ m ∧
      (min tw th = 0 ↔ m * min w h < max w h) ∧
      (¬ m * min w h < max w h → 1 ≤ min tw th) := by
  have hm0 : m ≠ 0 := by omega
  have hquot : ∀ s l : Int, 1 ≤ s → s ≤ l → m < l →
      0 ≤ m * s / l ∧ m * s / l ≤ m ∧ (m * s / l = 0 ↔ m * s < l) := by
    intro s l hs hsl hml
    have hl : 0 < l := by omega
    have h0 : 0 ≤ m * s := mul_nonneg (by omega) (by omega)
    have hq0 : 0 ≤ m * s / l := Int.ediv_nonneg h0 hl.le
    refine ⟨hq0, ediv_le_limit (by omega) hsl hl, ?_⟩
    constructor
    · intro hz
      have : m * s / l < 1 := by omega
      rw [Int.ediv_lt_iff_lt_mul hl] at this
      omega
    · intro hlt
      exact Int.ediv_eq_zero_of_lt h0 hlt
  by_cases hwh : h ≤ w
  · rw [max_eq_left hwh] at hgt ⊢
    rw [min_eq_right hwh] at hov ⊢
    have hwpos : 0 < w := by omega
    obtain ⟨q0, q1, q2⟩ := hquot h w hh hwh hgt
    refine ⟨m, m * h / w, ?_, fun _ => rfl, fun hc => absurd hwh (not_le.mpr hc), ?_⟩
    · rw [scale_step_wide hm0 hgt hwh,
        c_div_c_mul_of_range (mul_nonneg (by omega) (by omega)) hov hwpos]
      rfl
    · rw [max_eq_left q1, min_eq_right q1]
      refine ⟨rfl, q0, q1, q2, fun hn => ?_⟩
      have : m * h / w ≠ 0 := fun hz => hn (q2.mp hz)
      omega
  · have hlt : w < h := not_le.mp hwh
    rw [max_eq_right hlt.le] at hgt ⊢
    rw [min_eq_left hlt.le] at hov ⊢
    have hhpos : 0 < h := by omega
    obtain ⟨q0, q1, q2⟩ := hquot w h hw hlt.le hgt
    refine ⟨m * w / h, m, ?_, fun hc => absurd hc hwh, fun _ => rfl, ?_⟩
    · rw [scale_step_tall hm0 hgt hlt,
        c_div_c_mul_of_range (mul_nonneg (by omega) (by omega)) hov hhpos]
      rfl
    · rw [max_eq_right q1, min_eq_left q1]
      refine ⟨rfl, q0, q1, q2, fun hn => ?_⟩
      have : m * w / h ≠ 0 := fun hz => hn (q2.mp hz)
      omega

/-! ## Lemmas on the search loops -/

theorem tested_cons (W : World Pixbuf) (c : CString) (cs : List CString) :
    tested W (c :: cs) = if wins W c then [c] else c :: tested W cs := by
  unfold tested
  by_cases h : wins W c = true
  · simp [h, List.takeWhile_cons, List.find?_cons]
  · have h2 : wins W c = false := by simpa using h
    simp [h2, List.takeWhile_cons, List.find?_cons]

theorem tested_isPrefix (W : World Pixbuf) (cs : List CString) : tested W cs <+: cs := by
  induction cs with
  | nil => exact List.prefix_rfl
  | cons c cs ih =>
    rw [tested_cons]
    split_ifs
    · exact List.cons_prefix_cons.mpr ⟨rfl, List.nil_prefix⟩
    · exact List.cons_prefix_cons.mpr ⟨rfl, ih⟩

theorem scan_eq (W : World Pixbuf) (cs : List CString) :
    scan W cs = ((cs.find? (wins W)).bind (fun c => (get_pixbuf_from_file W c).1),
      (tested W cs).flatMap (probe W)) := by
  induction cs with
  | nil => rfl
  | cons c cs ih =>
    rw [scan, tested_cons]
    by_cases h : wins W c = true
    · simp [h, List.find?_cons]
    · have h2 : wins W c = false := by simpa using h
      simp [h2, List.find?_cons, ih]

theorem scan_isSome_of_wins (W : World Pixbuf) (cs : List CString) :
    (scan W cs).1.isSome = (cs.find? (wins W)).isSome := by
  induction cs with
  | nil => rfl
  | cons c cs ih =>
    rw [scan]
    by_cases h : wins W c = true
    · have h3 : (get_pixbuf_from_file W c).1.isSome = true := by
        unfold wins at h
        simp at h
        exact h.2
      simp [h, List.find?_cons, h3]
    · have h2 : wins W c = false := by simpa using h
      simp [h2, List.find?_cons, ih]

theorem scan_append (W : World Pixbuf) (a b : List CString) :
    scan W (a ++ b) =
      if (scan W a).1.isSome then scan W a
      else ((scan W b).1, (scan W a).2 ++ (scan W b).2) := by
  induction a with
  | nil => simp [scan]
  | cons c cs ih =>
    rw [List.cons_append, scan, scan]
    by_cases h : wins W c = true
    · have h3 : (get_pixbuf_from_file W c).1.isSome = true := by
        unfold wins at h
        simp at h
        exact h.2
      simp [h, h3]
    · have h2 : wins W c = false := by simpa using h
      simp only [h2, ih]
      by_cases hs : (scan W cs).1.isSome = true
      · simp [hs]
      · simp [hs]

theorem suffix_loop_eq (W : World Pixbuf) (folder name : CString) (sufs : List CString) :
    suffix_loop W folder name sufs none =
      scan W (sufs.map fun suf => folder ++ "/".toList ++ name ++ suf) := by
  induction sufs with
  | nil => rfl
  | cons suf rest ih =>
    rw [List.map_cons, scan, suffix_loop]
    simp only []
    rw [← ih]
    generalize folder ++ "/".toList ++ name ++ suf = p
    by_cases hr : is_readable_file W p = true
    · by_cases hp : (get_pixbuf_from_file W p).1.isSome = true
      · simp [wins, probe, hr, hp]
      · have hn : (get_pixbuf_from_file W p).1 = none := by
          simpa using hp
        simp [wins, probe, hr, hn]
    · have hr2 : is_readable_file W p = false := by simpa using hr
      simp [wins, probe, hr2]


theorem strchr_none {s : CString} {c : Char} (h : strchr s c = none) : c ∉ s := by
  induction s with
  | nil => simp
  | cons x xs ih =>
    rw [strchr] at h
    by_cases hx : x = c
    · rw [if_pos hx] at h
      cases h
    · rw [if_neg hx] at h
      intro hmem
      rcases List.mem_cons.mp hmem with h1 | h1
      · exact hx h1.symm
      · exact ih h h1

theorem strchr_some {s e : CString} {c : Char} (h : strchr s c = some e) :
    ∃ pre rest, e = c :: rest ∧ s = pre ++ c :: rest ∧ c ∉ pre := by
  induction s with
  | nil => cases h
  | cons x xs ih =>
    rw [strchr] at h
    by_cases hx : x = c
    · rw [if_pos hx] at h
      cases h
      exact ⟨[], xs, by rw [hx], by rw [hx]; rfl, by simp⟩
    · rw [if_neg hx] at h
      obtain ⟨pre, rest, h1, h2, h3⟩ := ih h
      refine ⟨x :: pre, rest, h1, by rw [h2]; rfl, ?_⟩
      intro hmem
      rcases List.mem_cons.mp hmem with h4 | h4
      · exact hx h4.symm
      · exact h3 h4

theorem splitOn_of_not_mem {s : CString} {c : Char} (h : c ∉ s) : s.splitOn c = [s] := by
  unfold List.splitOn
  apply List.splitOnP_eq_single
  intro x hx hxc
  have : x = c := by simpa using hxc
  exact h (this ▸ hx)

theorem splitOn_first {pre : CString} {c : Char} (h : c ∉ pre) (rest : CString) :
    (pre ++ c :: rest).splitOn c = pre :: rest.splitOn c := by
  unfold List.splitOn
  apply List.splitOnP_first
  · intro x hx hxc
    have : x = c := by simpa using hxc
    exact h (this ▸ hx)
  · simp

theorem candidates_of_not_mem {start : CString} (h : ':' ∉ start) (name : CString) :
    candidates start name = suffixes.map fun suf => start ++ "/".toList ++ name ++ suf := by
  unfold candidates
  rw [splitOn_of_not_mem h]
  simp

theorem candidates_first {pre : CString} (h : ':' ∉ pre) (rest name : CString) :
    candidates (pre ++ ':' :: rest) name =
      (suffixes.map fun suf => pre ++ "/".toList ++ name ++ suf) ++ candidates rest name := by
  unfold candidates
  rw [splitOn_first h]
  simp

theorem folder_loop_eq (W : World Pixbuf) (name : CString) (fuel : Nat) :
    ∀ start : CString, start.length < fuel →
      folder_loop W name fuel start none = some (scan W (candidates start name)) := by
  induction fuel with
  | zero => intro start h; omega
  | succ fuel ih =>
    intro start hlen
    rw [folder_loop]
    cases hs : strchr start ':' with
    | none =>
      have hmem := strchr_none hs
      simp only [List.length_nil, Nat.sub_zero, List.take_length]
      rw [suffix_loop_eq, candidates_of_not_mem hmem]
      simp [STR_FULL, STR_EMPTY]
    | some e =>
      obtain ⟨pre, rest, he, hstart, hmem⟩ := strchr_some hs
      subst he
      subst hstart
      have htake : (pre ++ ':' :: rest).take ((pre ++ ':' :: rest).length - (':' :: rest).length)
          = pre := by
        simp
      have hrest : rest.length < fuel := by
        simp at hlen
        omega
      simp only [htake]
      rw [suffix_loop_eq, candidates_first hmem, scan_append]
      by_cases hp : (scan W (suffixes.map fun suf => pre ++ "/".toList ++ name ++ suf)).1.isSome
          = true
      · rw [if_pos hp, if_pos hp]
      · have hn : (scan W (suffixes.map fun suf => pre ++ "/".toList ++ name ++ suf)).1 = none := by
          simpa using hp
        rw [if_neg hp, if_neg hp]
        simp only [STR_FULL, STR_EMPTY, List.isEmpty_cons, Bool.not_false, if_true, List.drop_one,
          List.tail_cons]
        rw [hn, ih rest hrest]
        rfl

theorem bare_name_resolved {W : World Pixbuf} {name : CString} (h : bare_name W name) :
    uri_resolved W name = name := by
  obtain ⟨_, _, _, h4⟩ := h
  unfold uri_resolved
  simp only []
  by_cases hp : g_str_has_prefix name "file://".toList = true
  · rw [if_pos hp]
    cases hu : W.g_filename_from_uri name with
    | none => rfl
    | some p => exact absurd ⟨hp, by rw [hu]; rfl⟩ h4
  · rw [if_neg hp]

theorem search_eq (W : World Pixbuf) (fuel : Nat) (name : CString) (hbare : bare_name W name)
    (hfuel : W.icon_path.length < fuel) :
    get_pixbuf_from_icon W fuel name =
      some (if (scan W (candidates W.icon_path name)).1.isNone then
          ((scan W (candidates W.icon_path name)).1,
            (scan W (candidates W.icon_path name)).2 ++ [not_found_warning name])
        else scan W (candidates W.icon_path name)) := by
  have hres := bare_name_resolved hbare
  obtain ⟨h1, h2, h3, _⟩ := hbare
  unfold get_pixbuf_from_icon
  have hne : STR_EMPTY name = false := by
    cases name with
    | nil => exact absurd rfl h1
    | cons => rfl
  simp only [hne, hres]
  rw [if_neg (by simp), if_neg (fun hc => hc.elim h2 h3), folder_loop_eq W name fuel _ hfuel]
  rfl


theorem accessed_append (a b : List Event) : accessed (a ++ b) = accessed a ++ accessed b := by
  induction a with
  | nil => rfl
  | cons e es ih => cases e <;> simp [accessed, ih]

theorem loaded_append (a b : List Event) : loaded (a ++ b) = loaded a ++ loaded b := by
  induction a with
  | nil => rfl
  | cons e es ih => cases e <;> simp [loaded, ih]

theorem warnings_append (a b : List Event) : warnings (a ++ b) = warnings a ++ warnings b := by
  induction a with
  | nil => rfl
  | cons e es ih => cases e <;> simp [warnings, ih]

theorem accessed_probe (W : World Pixbuf) (c : CString) : accessed (probe W c) = [c] := by
  unfold probe get_pixbuf_from_file
  by_cases hr : is_readable_file W c = true
  · cases he : (W.gdk_pixbuf_new_from_file (W.string_to_path c)).2 <;> simp [hr, he, accessed]
  · simp [hr, accessed]

theorem loaded_probe (W : World Pixbuf) (c : CString) :
    loaded (probe W c) = if is_readable_file W c then [W.string_to_path c] else [] := by
  unfold probe get_pixbuf_from_file
  by_cases hr : is_readable_file W c = true
  · cases he : (W.gdk_pixbuf_new_from_file (W.string_to_path c)).2 <;> simp [hr, he, loaded]
  · simp [hr, loaded]

theorem warnings_probe (W : World Pixbuf) (c : CString) :
    warnings (probe W c) =
      if is_readable_file W c then (W.gdk_pixbuf_new_from_file (W.string_to_path c)).2.toList else [] := by
  unfold probe get_pixbuf_from_file
  by_cases hr : is_readable_file W c = true
  · cases he : (W.gdk_pixbuf_new_from_file (W.string_to_path c)).2 <;> simp [hr, he, warnings]
  · simp [hr, warnings]

theorem accessed_flatMap_probe (W : World Pixbuf) (cs : List CString) :
    accessed (cs.flatMap (probe W)) = cs := by
  induction cs with
  | nil => rfl
  | cons c cs ih => rw [List.flatMap_cons, accessed_append, accessed_probe, ih]; rfl

theorem loaded_flatMap_probe (W : World Pixbuf) (cs : List CString) :
    loaded (cs.flatMap (probe W)) = (cs.filter (is_readable_file W)).map W.string_to_path := by
  induction cs with
  | nil => rfl
  | cons c cs ih =>
    rw [List.flatMap_cons, loaded_append, loaded_probe, ih]
    by_cases hr : is_readable_file W c = true
    · simp [hr]
    · simp [hr]

theorem warnings_flatMap_probe (W : World Pixbuf) (cs : List CString) :
    warnings (cs.flatMap (probe W)) =
      (cs.filter (is_readable_file W)).flatMap fun c =>
        (W.gdk_pixbuf_new_from_file (W.string_to_path c)).2.toList := by
  induction cs with
  | nil => rfl
  | cons c cs ih =>
    rw [List.flatMap_cons, warnings_append, warnings_probe, ih]
    by_cases hr : is_readable_file W c = true
    · simp [hr]
    · simp [hr]

theorem scan_unreadable (W : World Pixbuf) (cs : List CString)
    (h : ∀ c ∈ cs, is_readable_file W c = false) : scan W cs = (none, cs.map Event.access) := by
  induction cs with
  | nil => rfl
  | cons c cs ih =>
    have hc : is_readable_file W c = false := h c (List.mem_cons_self _ _)
    rw [scan, ih (fun d hd => h d (List.mem_cons_of_mem _ hd))]
    simp [wins, probe, hc]

/-- Claim C1.  For a bare icon name, any `icon_path` and any file system, with enough fuel
`get_pixbuf_from_icon` returns the pixbuf of the first candidate, in the order of `candidates`,
that is readable and decodes (NULL when there is none).  The files it checks with `access` are
exactly the candidates up to and including that first match, in that order, so no later
candidate is tested; the files it decodes are the readable ones among them, so a readable
candidate that fails to decode does not stop the search. -/
theorem search_returns_first_match (W : World Pixbuf) (fuel : Nat) (name : CString)
    (hbare : bare_name W name) (hfuel : W.icon_path.length < fuel) :
    ∃ log : List Event,
      get_pixbuf_from_icon W fuel name =
        some (((candidates W.icon_path name).find? (wins W)).bind
          (fun c => (get_pixbuf_from_file W c).1), log) ∧
      log = (tested W (candidates W.icon_path name)).flatMap (probe W) ++
        (if ((candidates W.icon_path name).find? (wins W)).isSome then []
         else [not_found_warning name]) ∧
      accessed log = tested W (candidates W.icon_path name) ∧
      accessed log <+: candidates W.icon_path name ∧
      loaded log =
        ((tested W (candidates W.icon_path name)).filter (is_readable_file W)).map
          W.string_to_path := by
  have hsome := scan_isSome_of_wins W (candidates W.icon_path name)
  have hlog : ∀ extra : List Event, accessed extra = [] → loaded extra = [] →
      accessed ((tested W (candidates W.icon_path name)).flatMap (probe W) ++ extra) =
        tested W (candidates W.icon_path name) ∧
      loaded ((tested W (candidates W.icon_path name)).flatMap (probe W) ++ extra) =
        ((tested W (candidates W.icon_path name)).filter (is_readable_file W)).map
          W.string_to_path := by
    intro extra h1 h2
    rw [accessed_append, loaded_append, accessed_flatMap_probe, loaded_flatMap_probe, h1, h2]
    simp
  have hfin : ∀ extra : List Event, accessed extra = [] → loaded extra = [] →
      accessed ((tested W (candidates W.icon_path name)).flatMap (probe W) ++ extra) =
        tested W (candidates W.icon_path name) ∧
      accessed ((tested W (candidates W.icon_path name)).flatMap (probe W) ++ extra) <+:
        candidates W.icon_path name ∧
      loaded ((tested W (candidates W.icon_path name)).flatMap (probe W) ++ extra) =
        ((tested W (candidates W.icon_path name)).filter (is_readable_file W)).map
          W.string_to_path := by
    intro extra h1 h2
    refine ⟨(hlog extra h1 h2).1, ?_, (hlog extra h1 h2).2⟩
    rw [(hlog extra h1 h2).1]
    exact tested_isPrefix W _
  refine ⟨_, ?_, rfl, ?_⟩
  · rw [search_eq W fuel name hbare hfuel]
    by_cases hf : ((candidates W.icon_path name).find? (wins W)).isSome = true
    · have h1 : (scan W (candidates W.icon_path name)).1.isNone = false := by
        rw [hf] at hsome
        cases hsc : (scan W (candidates W.icon_path name)).1 with
        | none => rw [hsc] at hsome; cases hsome
        | some p => rfl
      rw [if_neg (by simp [h1]), if_pos hf, scan_eq]
      simp
    · have h1 : (scan W (candidates W.icon_path name)).1.isNone = true := by
        cases hsc : (scan W (candidates W.icon_path name)).1 with
        | none => rfl
        | some p => rw [hsc] at hsome; exact absurd hsome.symm hf
      rw [if_pos h1, if_neg hf, scan_eq]
  · split_ifs
    · exact hfin [] rfl rfl
    · exact hfin [not_found_warning name] rfl rfl

theorem warnings_map_access (cs : List CString) : warnings (cs.map Event.access) = [] := by
  induction cs with
  | nil => rfl
  | cons c cs ih => simpa [warnings] using ih

theorem strrchr_last (pre ext : CString) (c : Char) (h : c ∉ ext) :
    strrchr (pre ++ c :: ext) c = some (c :: ext) := by
  have hext : ∀ t : CString, c ∉ t → strrchr t c = none := by
    intro t
    induction t with
    | nil => intro _; rfl
    | cons x xs ih =>
      intro hx
      have h1 : x ≠ c := fun hc => hx (hc ▸ List.mem_cons_self _ _)
      have h2 : c ∉ xs := fun hc => hx (List.mem_cons_of_mem _ hc)
      rw [strrchr, ih h2]
      simp [h1]
  induction pre with
  | nil =>
    rw [List.nil_append, strrchr, hext ext h]
    simp
  | cons x xs ih =>
    rw [List.cons_append, strrchr, ih]

/-- The example of the specification: search path `/a:/b`, name `bell`, only `/b/bell.png`
present.  Five candidates are checked in order, the fifth is decoded, no warning is logged. -/
theorem bell_example_trace : get_pixbuf_from_icon bellWorld 6 "bell".toList = some (some 1,
  [Event.access "/a/bell.svg".toList, Event.access "/a/bell.png".toList, Event.access "/a/bell.xpm".toList,
   Event.access "/b/bell.svg".toList, Event.access "/b/bell.png".toList, Event.load "/b/bell.png".toList]) := by decide

/-- Instance of claim C1 on the search path `/a:/b` with only `/b/bell.png` present: the
theorem applies, and the files checked are the first five candidates, `/b/bell.xpm` not being
among them. -/
theorem search_returns_first_match_witness :
    bare_name bellWorld "bell".toList ∧ bellWorld.icon_path.length < 6 ∧
    (∃ log : List Event,
      get_pixbuf_from_icon bellWorld 6 "bell".toList =
        some (((candidates bellWorld.icon_path "bell".toList).find? (wins bellWorld)).bind
          (fun c => (get_pixbuf_from_file bellWorld c).1), log) ∧
      log = (tested bellWorld (candidates bellWorld.icon_path "bell".toList)).flatMap
          (probe bellWorld) ++
        (if ((candidates bellWorld.icon_path "bell".toList).find? (wins bellWorld)).isSome then []
         else [not_found_warning "bell".toList]) ∧
      accessed log = tested bellWorld (candidates bellWorld.icon_path "bell".toList) ∧
      accessed log <+: candidates bellWorld.icon_path "bell".toList ∧
      loaded log =
        ((tested bellWorld (candidates bellWorld.icon_path "bell".toList)).filter
          (is_readable_file bellWorld)).map bellWorld.string_to_path) ∧
    tested bellWorld (candidates bellWorld.icon_path "bell".toList) =
      ["/a/bell.svg".toList, "/a/bell.png".toList, "/a/bell.xpm".toList,
       "/b/bell.svg".toList, "/b/bell.png".toList] ∧
    "/b/bell.xpm".toList ∈ candidates bellWorld.icon_path "bell".toList :=
  ⟨by decide, by decide,
    search_returns_first_match bellWorld 6 "bell".toList (by decide) (by decide),
    by decide, by decide⟩

/-- Claim C2 fails as stated: for the direct path `/tmp/corrupt.png` whose decoding fails with
an error of the image library, `get_pixbuf_from_icon` returns NULL and logs one warning, the
message of that error. -/
theorem direct_corrupt_file_warns :
    (get_pixbuf_from_icon corruptWorld 0 "/tmp/corrupt.png".toList).map
        (fun r => (r.1, warnings r.2)) =
      some (none, ["Couldn\x27t recognize the image file format".toList]) := by
  decide

/-- Claim C2, amended.  For an icon text that begins with a slash or a tilde (directly or after
`file://` resolution) and whose file fails to decode, `get_pixbuf_from_icon` returns NULL,
checks no file with `access`, and does not log the warning of a failed search; what it logs is
the error message of the image library when the library reports one (`get_pixbuf_from_file`
does so), and nothing otherwise. -/
theorem direct_path_decode_failure (W : World Pixbuf) (fuel : Nat) (text : CString)
    (hne : text ≠ [])
    (hdirect : (uri_resolved W text).head? = some '/' ∨ (uri_resolved W text).head? = some '~')
    (hfail : (W.gdk_pixbuf_new_from_file (W.string_to_path (uri_resolved W text))).1 = none) :
    ∃ log : List Event,
      get_pixbuf_from_icon W fuel text = some (none, log) ∧
      log = Event.load (W.string_to_path (uri_resolved W text)) ::
        (W.gdk_pixbuf_new_from_file (W.string_to_path (uri_resolved W text))).2.toList.map
          Event.warn ∧
      warnings log =
        (W.gdk_pixbuf_new_from_file (W.string_to_path (uri_resolved W text))).2.toList ∧
      accessed log = [] := by
  have hne2 : STR_EMPTY text = false := by
    cases text with
    | nil => exact absurd rfl hne
    | cons => rfl
  have hrun : get_pixbuf_from_icon W fuel text =
      some (get_pixbuf_from_file W (uri_resolved W text)) := by
    unfold get_pixbuf_from_icon
    simp only [hne2]
    rw [if_neg (by simp), if_pos hdirect]
  refine ⟨_, ?_, rfl, ?_, ?_⟩
  · rw [hrun]
    unfold get_pixbuf_from_file
    simp only [hfail]
    cases (W.gdk_pixbuf_new_from_file (W.string_to_path (uri_resolved W text))).2 <;> rfl
  · cases (W.gdk_pixbuf_new_from_file (W.string_to_path (uri_resolved W text))).2 <;> rfl
  · cases (W.gdk_pixbuf_new_from_file (W.string_to_path (uri_resolved W text))).2 <;> rfl

/-- Claim C3.  For a bare icon name none of whose candidates is readable, with enough fuel
`get_pixbuf_from_icon` returns NULL and logs exactly one warning, which carries the icon name;
the only other events are the readability checks of all the candidates. -/
theorem absent_name_warns_once (W : World Pixbuf) (fuel : Nat) (name : CString)
    (hbare : bare_name W name) (hfuel : W.icon_path.length < fuel)
    (habsent : ∀ c ∈ candidates W.icon_path name, is_readable_file W c = false) :
    ∃ log : List Event,
      get_pixbuf_from_icon W fuel name = some (none, log) ∧
      warnings log = ["No icon found in path: '".toList ++ name ++ "'".toList] ∧
      log = (candidates W.icon_path name).map Event.access ++ [not_found_warning name] := by
  refine ⟨_, ?_, ?_, rfl⟩
  · rw [search_eq W fuel name hbare hfuel, scan_unreadable W _ habsent]
    rfl
  · rw [warnings_append, warnings_map_access]
    rfl

/-- Claim C4 fails as stated: with `/a/bell.svg` readable but corrupt and `/a/bell.png` fine,
the search for `bell` returns an image and has logged one warning, the decode error of the
candidate that was skipped. -/
theorem skipped_candidate_warns :
    bare_name fallbackWorld "bell".toList ∧
    (get_pixbuf_from_icon fallbackWorld 3 "bell".toList).map (fun r => (r.1, warnings r.2)) =
      some (some 7, ["Couldn\x27t recognize the image file format".toList]) := by
  decide

/-- Claim C4, amended.  For a bare-name search in which some candidate is readable and decodes,
`get_pixbuf_from_icon` returns an image and does not log the warning of a failed search: its
events are those of the candidates tried, and the warnings logged are exactly the error
messages the image library reported for the readable candidates tried, in order. -/
theorem search_success_warnings (W : World Pixbuf) (fuel : Nat) (name : CString)
    (hbare : bare_name W name) (hfuel : W.icon_path.length < fuel)
    (hfound : ((candidates W.icon_path name).find? (wins W)).isSome = true) :
    ∃ (pixbuf : Pixbuf) (log : List Event),
      get_pixbuf_from_icon W fuel name = some (some pixbuf, log) ∧
      log = (tested W (candidates W.icon_path name)).flatMap (probe W) ∧
      warnings log =
        ((tested W (candidates W.icon_path name)).filter (is_readable_file W)).flatMap
          (fun c => (W.gdk_pixbuf_new_from_file (W.string_to_path c)).2.toList) := by
  have hsome := scan_isSome_of_wins W (candidates W.icon_path name)
  rw [hfound] at hsome
  cases hsc : (scan W (candidates W.icon_path name)).1 with
  | none => rw [hsc] at hsome; cases hsome
  | some p =>
    refine ⟨p, _, ?_, rfl, warnings_flatMap_probe W _⟩
    rw [search_eq W fuel name hbare hfuel, hsc]
    have h2 : (scan W (candidates W.icon_path name)).2 =
        (tested W (candidates W.icon_path name)).flatMap (probe W) := by
      rw [scan_eq]
    rw [if_neg (by simp), ← h2, ← hsc]

/-- Claim C9 fails as stated: for `/a.b/file` and `/home/u/.bashrc`, whose final components
have no extension, `get_filename_ext` returns `b/file` and `bashrc`. -/
theorem ext_of_dotted_directory :
    get_filename_ext "/a.b/file".toList = "b/file".toList ∧
    extension_of "/a.b/file".toList = [] ∧
    get_filename_ext "/home/u/.bashrc".toList = "bashrc".toList ∧
    extension_of "/home/u/.bashrc".toList = [] := by
  decide

/-- Claim C9, amended.  `get_filename_ext` works on the whole string, not on its final path
component: it returns the empty string when the string has no dot, and for a string
`pre ++ "." ++ ext` whose last dot is the one shown it returns `ext`, except that it returns the
empty string when that dot is the first character of the string. -/
theorem get_filename_ext_whole_string (filename pre ext : CString) :
    ('.' ∉ filename → get_filename_ext filename = []) ∧
    ('.' ∉ ext → get_filename_ext (pre ++ '.' :: ext) = if pre = [] then [] else ext) := by
  constructor
  · intro h
    have hnone : ∀ t : CString, '.' ∉ t → strrchr t '.' = none := by
      intro t
      induction t with
      | nil => intro _; rfl
      | cons x xs ih =>
        intro hx
        have h1 : x ≠ '.' := fun hc => hx (hc ▸ List.mem_cons_self _ _)
        have h2 : '.' ∉ xs := fun hc => hx (List.mem_cons_of_mem _ hc)
        rw [strrchr, ih h2]
        simp [h1]
    unfold get_filename_ext
    rw [hnone filename h]
  · intro h
    unfold get_filename_ext
    rw [strrchr_last pre ext '.' h]
    cases pre with
    | nil => simp
    | cons x xs =>
      simp
      intro hlen
      omega

/-! ## Instances of the theorems on concrete inputs -/

/-- Instance of the amended claim C2: the URI `file:///tmp/x.png` resolves to `/tmp/x.png`,
which fails to decode. -/
theorem direct_path_decode_failure_witness :
    "file:///tmp/x.png".toList ≠ [] ∧
    ((uri_resolved uriWorld "file:///tmp/x.png".toList).head? = some '/' ∨
      (uri_resolved uriWorld "file:///tmp/x.png".toList).head? = some '~') ∧
    (uriWorld.gdk_pixbuf_new_from_file
      (uriWorld.string_to_path (uri_resolved uriWorld "file:///tmp/x.png".toList))).1 = none ∧
    ∃ log : List Event,
      get_pixbuf_from_icon uriWorld 0 "file:///tmp/x.png".toList = some (none, log) ∧
      log = Event.load
          (uriWorld.string_to_path (uri_resolved uriWorld "file:///tmp/x.png".toList)) ::
        (uriWorld.gdk_pixbuf_new_from_file
          (uriWorld.string_to_path
            (uri_resolved uriWorld "file:///tmp/x.png".toList))).2.toList.map Event.warn ∧
      warnings log =
        (uriWorld.gdk_pixbuf_new_from_file
          (uriWorld.string_to_path
            (uri_resolved uriWorld "file:///tmp/x.png".toList))).2.toList ∧
      accessed log = [] :=
  ⟨by decide, by decide, by decide,
    direct_path_decode_failure uriWorld 0 "file:///tmp/x.png".toList (by decide) (by decide)
      (by decide)⟩

/-- Instance of claim C3: the name `bell` on the search path `/a:/b` with no readable file. -/
theorem absent_name_warns_once_witness :
    bare_name emptyWorld "bell".toList ∧ emptyWorld.icon_path.length < 6 ∧
    (∀ c ∈ candidates emptyWorld.icon_path "bell".toList, is_readable_file emptyWorld c = false) ∧
    ∃ log : List Event,
      get_pixbuf_from_icon emptyWorld 6 "bell".toList = some (none, log) ∧
      warnings log = ["No icon found in path: '".toList ++ "bell".toList ++ "'".toList] ∧
      log = (candidates emptyWorld.icon_path "bell".toList).map Event.access ++
        [not_found_warning "bell".toList] :=
  ⟨by decide, by decide, fun _ _ => rfl,
    absent_name_warns_once emptyWorld 6 "bell".toList (by decide) (by decide)
      (fun _ _ => rfl)⟩

/-- Instance of the amended claim C4: `/a/bell.svg` is corrupt, `/a/bell.png` decodes. -/
theorem search_success_warnings_witness :
    bare_name fallbackWorld "bell".toList ∧ fallbackWorld.icon_path.length < 3 ∧
    ((candidates fallbackWorld.icon_path "bell".toList).find? (wins fallbackWorld)).isSome
      = true ∧
    ∃ (pixbuf : Nat) (log : List Event),
      get_pixbuf_from_icon fallbackWorld 3 "bell".toList = some (some pixbuf, log) ∧
      log = (tested fallbackWorld (candidates fallbackWorld.icon_path "bell".toList)).flatMap
        (probe fallbackWorld) ∧
      warnings log =
        ((tested fallbackWorld (candidates fallbackWorld.icon_path "bell".toList)).filter
          (is_readable_file fallbackWorld)).flatMap
          (fun c => (fallbackWorld.gdk_pixbuf_new_from_file
            (fallbackWorld.string_to_path c)).2.toList) :=
  ⟨by decide, by decide, by decide,
    search_success_warnings fallbackWorld 3 "bell".toList (by decide) (by decide) (by decide)⟩

/-- Instance of claim C5: a 1000 x 500 pixbuf with limit 32. -/
theorem scale_step_refines_spec_witness :
    (0 : Int) ≤ 32 ∧ (0 : Int) ≤ 1000 ∧ (0 : Int) ≤ 500 ∧
    (32 : Int) * 1000 ≤ INT_MAX ∧ (32 : Int) * 500 ≤ INT_MAX ∧
    target_size 32 1000 500 = some (scale_to_limit_spec 32 1000 500) ∧
    (((32 : Int) = 0 ∨ max (1000 : Int) 500 ≤ 32) → scale_step 32 1000 500 = some none) ∧
    ((0 : Int) < 32 →
      max (scale_to_limit_spec 32 1000 500).1 (scale_to_limit_spec 32 1000 500).2 ≤ 32) :=
  ⟨by decide, by decide, by decide, by decide, by decide,
    scale_step_refines_spec 32 1000 500 (by decide) (by decide) (by decide) (by decide)
      (by decide)⟩

/-- Instance of claim C6: a 1000 x 1 pixbuf with limit 32. -/
theorem scale_step_idempotent_witness :
    (0 : Int) < 32 ∧ (0 : Int) ≤ 1000 ∧ (0 : Int) ≤ 1 ∧
    ∃ s : Int × Int, target_size 32 1000 1 = some s ∧ target_size 32 s.1 s.2 = some s ∧
      scale_step 32 s.1 s.2 = some none :=
  ⟨by decide, by decide, by decide,
    scale_step_idempotent 32 1000 1 (by decide) (by decide) (by decide)⟩

/-- Instance of the amended claim C7: a 100 x 75 pixbuf with limit 32. -/
theorem aspect_ratio_within_one_pixel_witness :
    (1 : Int) ≤ 32 ∧ (1 : Int) ≤ 100 ∧ (1 : Int) ≤ 75 ∧ (32 : Int) < max 100 75 ∧
    (32 : Int) * min 100 75 ≤ INT_MAX ∧
    ∃ tw th : Int, scale_step 32 100 75 = some (some (tw, th)) ∧ max tw th = 32 ∧
      ((75 : Int) ≤ 100 → tw = 32 ∧
        (((32 : Int) : ℚ) * (75 : Int) / (100 : Int) - 1 < (th : ℚ) ∧
          (th : ℚ) ≤ ((32 : Int) : ℚ) * (75 : Int) / (100 : Int))) ∧
      ((100 : Int) < 75 → th = 32 ∧
        (((32 : Int) : ℚ) * (100 : Int) / (75 : Int) - 1 < (tw : ℚ) ∧
          (tw : ℚ) ≤ ((32 : Int) : ℚ) * (100 : Int) / (75 : Int))) :=
  ⟨by decide, by decide, by decide, by decide, by decide,
    aspect_ratio_within_one_pixel 32 100 75 (by decide) (by decide) (by decide) (by decide)
      (by decide)⟩

/-- Instance of the amended claim C8: a 0 x 5 pixbuf with limit 3. -/
theorem degenerate_size_step_witness :
    (0 : Int) ≤ 3 ∧ (0 : Int) ≤ 0 ∧ (0 : Int) ≤ 5 ∧ ((0 : Int) = 0 ∨ (5 : Int) = 0) ∧
    scale_step 3 0 5 ≠ none ∧
    scale_step 3 0 5 =
      (if (3 : Int) = 0 ∨ max (0 : Int) 5 ≤ 3 then some none
       else some (some (if (0 : Int) = 0 then (0, 3) else (3, 0)))) :=
  ⟨by decide, by decide, by decide, by decide,
    degenerate_size_step 3 0 5 (by decide) (by decide) (by decide) (by decide)⟩

/-- Instance of the amended claim C9: `README` has no dot, `icon.png` has the extension
`png`. -/
theorem get_filename_ext_whole_string_witness :
    '.' ∉ "README".toList ∧ '.' ∉ "png".toList ∧
    (('.' ∉ "README".toList → get_filename_ext "README".toList = []) ∧
     ('.' ∉ "png".toList → get_filename_ext ("icon".toList ++ '.' :: "png".toList) =
        if "icon".toList = [] then [] else "png".toList)) :=
  ⟨by decide, by decide,
    get_filename_ext_whole_string "README".toList "icon".toList "png".toList⟩

/-- Instance of claim C10: a 1000 x 1 pixbuf with limit 32, for which the size requested is
32 x 0. -/
theorem requested_size_range_witness :
    (1 : Int) ≤ 32 ∧ (1 : Int) ≤ 1000 ∧ (1 : Int) ≤ 1 ∧ (32 : Int) < max 1000 1 ∧
    (32 : Int) * min 1000 1 ≤ INT_MAX ∧
    (∃ tw th : Int, scale_step 32 1000 1 = some (some (tw, th)) ∧
      ((1 : Int) ≤ 1000 → tw = 32) ∧ ((1000 : Int) < 1 → th = 32) ∧
      max tw th = 32 ∧ 0 ≤ min tw th ∧ min tw th ≤ 32 ∧
      (min tw th = 0 ↔ (32 : Int) * min 1000 1 < max 1000 1) ∧
      (¬ (32 : Int) * min 1000 1 < max 1000 1 → 1 ≤ min tw th)) ∧
    scale_step 32 1000 1 = some (some (32, 0)) :=
  ⟨by decide, by decide, by decide, by decide, by decide,
    requested_size_range 32 1000 1 (by decide) (by decide) (by decide) (by decide) (by decide),
    by decide⟩

end Icon
